import Mathlib

/-!
Verification of the gml node-tree library (package gml): the Node data
model, the serializer (MarshalXML / Bytes / String), the deserializer
(UnmarshalXML driven by a token stream), and the navigation / mutation
operations (FindChild, AppendChild, CreatePath, CreateUniquePath,
EnsurePath, RemoveChildrenWithTag).

Two embeddings are used:
* a pure tree model (`Node`) together with a token-stream model of the
  encoding/xml encoder and decoder, for the serialization claims; and
* a heap model (`Mem`, nodes addressed by index) for the claims about
  pointer identity, parent back-references and reachability.
-/

namespace Gml

/-- ASCII whitespace test: the whitespace class of strings.TrimSpace
restricted to the ASCII whitespace characters relevant to markup. -/
def isSpaceChar (c : Char) : Bool :=
  c == ' ' || c == '\t' || c == '\n' || c == '\r'

/-- Drop whitespace from the front and from the back of a character list. -/
def trimList (l : List Char) : List Char :=
  ((l.dropWhile isSpaceChar).reverse.dropWhile isSpaceChar).reverse

/-- Models strings.TrimSpace (on the ASCII whitespace class). -/
def trimStr (s : String) : String := ⟨trimList s.data⟩

/-- Go map assignment `m[k] = v` on an association-list model of
map[string]string: replace the value if the key is present, otherwise
append the new entry. -/
def mapAssign : List (String × String) → String → String → List (String × String)
  | [], k, v => [(k, v)]
  | (k', v') :: rest, k, v =>
    if k' == k then (k', v) :: rest else (k', v') :: mapAssign rest k v

/-- Go map lookup `m[k]` on the association-list model. -/
def lookupAttr : List (String × String) → String → Option String
  | [], _ => none
  | (k', v') :: rest, k => if k' == k then some v' else lookupAttr rest k

/-- The keys of the association list are pairwise distinct (the invariant
of any list that represents a Go map). -/
def keysNodup : List (String × String) → Bool
  | [] => true
  | (k, _) :: rest => !(rest.any (fun kv => kv.1 == k)) && keysNodup rest

/-- The Node data model of gml: tag, inner text, attributes and ordered
children.  The Parent back-pointer of the Go struct is not representable
in a pure tree; it is modelled separately in the heap model `Mem`. -/
inductive Node where
  | mk (tag : String) (innerText : String)
       (attributes : List (String × String)) (children : List Node)

mutual
def decEqNode : (a b : Node) → Decidable (a = b)
  | .mk t1 x1 a1 c1, .mk t2 x2 a2 c2 =>
    if h1 : t1 = t2 then
      if h2 : x1 = x2 then
        if h3 : a1 = a2 then
          match decEqNodeList c1 c2 with
          | isTrue h4 => isTrue (by rw [h1, h2, h3, h4])
          | isFalse h4 => isFalse (by intro hh; injection hh; contradiction)
        else isFalse (by intro hh; injection hh; contradiction)
      else isFalse (by intro hh; injection hh; contradiction)
    else isFalse (by intro hh; injection hh; contradiction)
def decEqNodeList : (a b : List Node) → Decidable (a = b)
  | [], [] => isTrue rfl
  | [], _ :: _ => isFalse (by intro hh; exact List.noConfusion hh)
  | _ :: _, [] => isFalse (by intro hh; exact List.noConfusion hh)
  | a :: as, b :: bs =>
    match decEqNode a b with
    | isTrue h1 =>
      match decEqNodeList as bs with
      | isTrue h2 => isTrue (by rw [h1, h2])
      | isFalse h2 => isFalse (by intro hh; injection hh; contradiction)
    | isFalse h1 => isFalse (by intro hh; injection hh; contradiction)
end

instance : DecidableEq Node := decEqNode

def Node.tag : Node → String
  | .mk t _ _ _ => t

def Node.innerText : Node → String
  | .mk _ x _ _ => x

def Node.attributes : Node → List (String × String)
  | .mk _ _ a _ => a

def Node.children : Node → List Node
  | .mk _ _ _ c => c

mutual
/-- Size measure for a node (for strong induction over the nested tree). -/
def nsize : Node → Nat
  | .mk _ _ _ cs => 1 + lsize cs
/-- Size measure for a list of nodes. -/
def lsize : List Node → Nat
  | [] => 0
  | c :: cs => nsize c + lsize cs
end

/-- Tokens of the encoding/xml token stream: StartElement, CharData,
EndElement; `other` stands for the token kinds the gml code ignores
(Comment, ProcInst, Directive); `err` stands for a position at which the
decoder's Token() call reports an error (malformed markup). -/
inductive Token where
  | start (name : String) (attrs : List (String × String))
  | text (s : String)
  | endT (name : String)
  | other
  | err (msg : String)
deriving DecidableEq

/-- Models the in-memory failure modes of xml.Encoder.EncodeToken: a
start or end tag with no name is rejected (the behavior of encoding/xml,
which is the encoder the repository marshals through; it is not part of
src/). -/
def encTokenCheck : Token → Except String Unit
  | .start name _ => if name == "" then .error "xml: start tag with no name" else .ok ()
  | .endT name => if name == "" then .error "xml: end tag with no name" else .ok ()
  | _ => .ok ()

mutual
/-- MarshalXML from src/gml.go, at the token level.  `it` is the order in
which `range n.Attributes` yields the map entries: Go leaves this order
unspecified, so the serializer is parameterized by it (any permutation of
the stored entries is an admissible run). -/
def marshalXML (it : List (String × String) → List (String × String)) :
    Node → Except String (List Token)
  | .mk tag innerText attributes children =>
    let start : Token := .start tag (it attributes)
    if children.isEmpty && (innerText == "") then
      match encTokenCheck start with
      | .error e => .error e
      | .ok _ => .ok [start, .endT tag]
    else
      match encTokenCheck start with
      | .error e => .error e
      | .ok _ =>
        match marshalChildren it children with
        | .error e => .error e
        | .ok childToks =>
          .ok (start :: ((if innerText == "" then [] else [.text innerText])
                ++ childToks ++ [.endT tag]))

/-- The loop `for _, child := range n.Children { e.Encode(child) }` of
MarshalXML: serialize each child in order, propagating the first error. -/
def marshalChildren (it : List (String × String) → List (String × String)) :
    List Node → Except String (List Token)
  | [] => .ok []
  | c :: cs =>
    match marshalXML it c with
    | .error e => .error e
    | .ok t1 =>
      match marshalChildren it cs with
      | .error e => .error e
      | .ok t2 => .ok (t1 ++ t2)
end

/-- Escape the five markup special characters the way encoding/xml does. -/
def escapeChar (c : Char) : String :=
  if c == '&' then "&amp;"
  else if c == '<' then "&lt;"
  else if c == '>' then "&gt;"
  else if c == '\'' then "&#39;"
  else if c == '"' then "&#34;"
  else String.singleton c

def escapeStr (s : String) : String :=
  s.data.foldl (fun acc c => acc ++ escapeChar c) ""

/-- Render one token to markup text (the text layer of the encoder;
indentation, a layout-only concern, is not modelled). -/
def renderToken : Token → String
  | .start name attrs =>
    "<" ++ name
        ++ (attrs.foldl (fun acc kv =>
              acc ++ " " ++ kv.1 ++ "=\"" ++ escapeStr kv.2 ++ "\"") "")
        ++ ">"
  | .text s => escapeStr s
  | .endT name => "</" ++ name ++ ">"
  | .other => ""
  | .err _ => ""

def renderTokens (ts : List Token) : String :=
  ts.foldl (fun acc t => acc ++ renderToken t) ""

/-- Models xml.Marshal applied to a Node: run MarshalXML and render the
emitted tokens, or report the marshalling error. -/
def serializeNode (it : List (String × String) → List (String × String))
    (n : Node) : Except String String :=
  match marshalXML it n with
  | .error e => .error e
  | .ok ts => .ok (renderTokens ts)

/-- Bytes from src/gml.go: marshal the node and return the output, or
return nil (modelled as `none`) when marshalling fails — the error value
is dropped.  `id` stands for one admissible map iteration order. -/
def bytesGo (n : Node) : Option String :=
  match serializeNode id n with
  | .error _ => none
  | .ok s => some s

/-- String from src/gml.go: `string(n.Bytes())`; Go's string(nil) is "". -/
def stringGo (n : Node) : String :=
  match bytesGo n with
  | none => ""
  | some s => s

/-- The node state UnmarshalXML establishes on entry from the start
element: tag from the element name, attributes inserted one by one into a
fresh map, no text, no children. -/
def initNode (name : String) (attrs : List (String × String)) : Node :=
  .mk name "" (attrs.foldl (fun m kv => mapAssign m kv.1 kv.2) []) []

/-- `n.Children = append(n.Children, child)` in UnmarshalXML. -/
def addChild : Node → Node → Node
  | .mk t x a cs, child => .mk t x a (cs ++ [child])

/-- `n.InnerText = strings.TrimSpace(string(elem))` in UnmarshalXML. -/
def setText : Node → String → Node
  | .mk t _ a cs, s => .mk t (trimStr s) a cs

/-- The token loop of UnmarshalXML from src/gml.go.  The stream is the
list of results of successive d.Token() calls; an exhausted list is an
unexpected end of input (d.Token() returns an error).  The result carries
the unconsumed remainder of the stream, bounded for termination. -/
def unmarshalLoop (cur : Node) :
    (toks : List Token) → Except String (Node × {l : List Token // l.length ≤ toks.length})
  | [] => .error "unexpected EOF"
  | .err e :: _ => .error e
  | .start name attrs :: ts =>
    match unmarshalLoop (initNode name attrs) ts with
    | .error e => .error e
    | .ok (child, rest) =>
      match unmarshalLoop (addChild cur child) rest.1 with
      | .error e => .error e
      | .ok (done, rest2) =>
        .ok (done, ⟨rest2.1, by
          have h1 := rest.2
          have h2 := rest2.2
          simp only [List.length_cons]
          omega⟩)
  | .text s :: ts =>
    match unmarshalLoop (setText cur s) ts with
    | .error e => .error e
    | .ok (done, rest) =>
      .ok (done, ⟨rest.1, by
        have h1 := rest.2
        simp only [List.length_cons]
        omega⟩)
  | .endT name :: ts =>
    if name == cur.tag then .ok (cur, ⟨ts, by simp⟩)
    else
      match unmarshalLoop cur ts with
      | .error e => .error e
      | .ok (done, rest) =>
        .ok (done, ⟨rest.1, by
          have h1 := rest.2
          simp only [List.length_cons]
          omega⟩)
  | .other :: ts =>
    match unmarshalLoop cur ts with
    | .error e => .error e
    | .ok (done, rest) =>
      .ok (done, ⟨rest.1, by
        have h1 := rest.2
        simp only [List.length_cons]
        omega⟩)
termination_by toks => toks.length
decreasing_by
  · simp only [List.length_cons]; omega
  · have := rest.2; simp only [List.length_cons]; omega
  · simp only [List.length_cons]; omega
  · simp only [List.length_cons]; omega
  · simp only [List.length_cons]; omega

/-- The token loop, with the termination bookkeeping projected away. -/
def unmarshalLoopR (cur : Node) (toks : List Token) :
    Except String (Node × List Token) :=
  match unmarshalLoop cur toks with
  | .error e => .error e
  | .ok (n, rest) => .ok (n, rest.1)

/-- Models xml.Unmarshal applied to a token stream: skip tokens until the
first StartElement (propagating reader errors; an exhausted stream is an
EOF error), then run UnmarshalXML's loop on the element. -/
def deserializeTokens : List Token → Except String Node
  | [] => .error "EOF"
  | .start name attrs :: ts =>
    match unmarshalLoopR (initNode name attrs) ts with
    | .error e => .error e
    | .ok (n, _) => .ok n
  | .err e :: _ => .error e
  | .text _ :: ts => deserializeTokens ts
  | .endT _ :: ts => deserializeTokens ts
  | .other :: ts => deserializeTokens ts

/-- The two association lists denote the same attribute map: every entry
of each is found (with the same value) in the other. -/
def attrsEquiv (a b : List (String × String)) : Bool :=
  a.all (fun kv => lookupAttr b kv.1 == some kv.2) &&
  b.all (fun kv => lookupAttr a kv.1 == some kv.2)

mutual
/-- Tree equality in tag, attribute set and values, inner text and child
order — with the attribute serialization order and insignificant
(leading/trailing) whitespace of the text excluded, as the round-trip
contract states. -/
def nodeEquiv : Node → Node → Bool
  | .mk t1 x1 a1 c1, .mk t2 x2 a2 c2 =>
    t1 == t2 && trimStr x1 == trimStr x2 && attrsEquiv a1 a2 && listEquiv c1 c2
def listEquiv : List Node → List Node → Bool
  | [], [] => true
  | a :: as, b :: bs => nodeEquiv a b && listEquiv as bs
  | _, _ => false
end

mutual
/-- The preconditions of the round-trip property, §3 invariants included:
every node has a non-empty tag, every attribute key is non-empty, and the
attribute list stands for a Go map (pairwise distinct keys). -/
def wfNode : Node → Bool
  | .mk t _ a cs =>
    t != "" && a.all (fun kv => kv.1 != "") && keysNodup a && wfList cs
def wfList : List Node → Bool
  | [] => true
  | c :: cs => wfNode c && wfList cs
end

mutual
/-- The parse result of one element, as established below: tag kept, text
trimmed, attributes re-inserted into a fresh map in emission order,
children parsed recursively. -/
def roundNode (it : List (String × String) → List (String × String)) :
    Node → Node
  | .mk t x a cs =>
    .mk t (trimStr x) ((it a).foldl (fun m kv => mapAssign m kv.1 kv.2) [])
      (roundList it cs)
/-- roundNode mapped over a list of children. -/
def roundList (it : List (String × String) → List (String × String)) :
    List Node → List Node
  | [] => []
  | c :: cs => roundNode it c :: roundList it cs
end

mutual
/-- FindChild from src/gml.go on a non-nil receiver: the receiver is
checked first, then the children are searched recursively in order. -/
def findChild (n : Node) (tag : String) : Option Node :=
  match n with
  | .mk t x a cs =>
    if t == tag then some (.mk t x a cs) else findFirst cs tag
/-- The loop `for _, child := range n.Children` of FindChild: first
recursive hit wins. -/
def findFirst : List Node → String → Option Node
  | [], _ => none
  | c :: cs, tag =>
    match findChild c tag with
    | some found => some found
    | none => findFirst cs tag
end

/-- FindChild including the nil-receiver guard `if n == nil return nil`:
the receiver is an optional node. -/
def findChildOpt : Option Node → String → Option Node
  | none, _ => none
  | some n, tag => findChild n tag

mutual
/-- Pre-order listing of the subtree: the node itself first, then the
subtrees of its children in order. -/
def preorder : Node → List Node
  | .mk t x a cs => .mk t x a cs :: preorderList cs
def preorderList : List Node → List Node
  | [] => []
  | c :: cs => preorder c ++ preorderList cs
end

/-! ### Heap model

The Go methods mutate nodes through pointers.  `Mem` is a heap of node
records addressed by index; allocation appends a record.  This model
carries the Parent back-pointers and makes pointer identity, frame
conditions and reachability statable. -/

/-- One heap node record: the Node struct with pointer fields replaced by
indices. -/
structure HNode where
  tag : String
  parent : Option Nat
  children : List Nat
  innerText : String
  attributes : List (String × String)
deriving DecidableEq

/-- The heap: a list of records, node i being `nodes[i]`. -/
structure Mem where
  nodes : List HNode
deriving DecidableEq

def Mem.len (m : Mem) : Nat := m.nodes.length

def Mem.get (m : Mem) (i : Nat) : Option HNode := m.nodes[i]?

def Mem.setNode (m : Mem) (i : Nat) (h : HNode) : Mem := ⟨m.nodes.set i h⟩

def Mem.modifyNode (m : Mem) (i : Nat) (f : HNode → HNode) : Mem :=
  match m.get i with
  | none => m
  | some h => m.setNode i (f h)

/-- Allocate a fresh node record; its address is the old heap size. -/
def Mem.alloc (m : Mem) (h : HNode) : Mem × Nat :=
  (⟨m.nodes ++ [h]⟩, m.len)

def Mem.tagOf (m : Mem) (i : Nat) : String := ((m.get i).map HNode.tag).getD ""

def Mem.childrenOf (m : Mem) (i : Nat) : List Nat :=
  ((m.get i).map HNode.children).getD []

def Mem.parentOf (m : Mem) (i : Nat) : Option Nat := (m.get i).bind HNode.parent

/-- AppendChild from src/gml.go: set the child's Parent to the receiver,
append the child to the receiver's Children, return the child. -/
def Mem.appendChild (m : Mem) (p c : Nat) : Mem × Nat :=
  let m1 := m.modifyNode c (fun h => { h with parent := some p })
  let m2 := m1.modifyNode p (fun h => { h with children := h.children ++ [c] })
  (m2, c)

/-- CreatePath from src/gml.go: unconditionally append a fresh chain of
nodes, one per tag, and return the deepest one. -/
def Mem.createPath (m : Mem) (n : Nat) : List String → Mem × Nat
  | [] => (m, n)
  | t :: ts =>
    let al := m.alloc ⟨t, none, [], "", []⟩
    let ap := al.1.appendChild n al.2
    Mem.createPath ap.1 ap.2 ts

/-- RemoveChildrenWithTag from src/gml.go: keep, in order, exactly the
direct children whose tag differs from the argument. -/
def Mem.removeChildrenWithTag (m : Mem) (n : Nat) (tag : String) : Mem :=
  m.modifyNode n (fun h =>
    { h with children := h.children.filter (fun c => m.tagOf c != tag) })

/-- CreateUniquePath from src/gml.go: on an empty path return the
receiver; otherwise remove the direct children tagged path[0], then
create the whole chain anew. -/
def Mem.createUniquePath (m : Mem) (n : Nat) (path : List String) : Mem × Nat :=
  match path with
  | [] => (m, n)
  | t :: _ =>
    let m1 := m.removeChildrenWithTag n t
    m1.createPath n path

/-- The inner search of EnsurePath: the first direct child carrying the
wanted tag. -/
def Mem.findChildTag (m : Mem) (n : Nat) (t : String) : Option Nat :=
  (m.childrenOf n).find? (fun c => m.tagOf c == t)

/-- EnsurePath from src/gml.go: walk down reusing the first matching
child at each level; on the first miss, create the remaining path there. -/
def Mem.ensurePath (m : Mem) (n : Nat) : List String → Mem × Nat
  | [] => (m, n)
  | t :: ts =>
    match m.findChildTag n t with
    | some c => m.ensurePath c ts
    | none => m.createPath n (t :: ts)

/-- Every child index stored in a live record is a live address. -/
def Mem.WF (m : Mem) : Prop :=
  ∀ i, i < m.len → ∀ c ∈ m.childrenOf i, c < m.len

instance (m : Mem) : Decidable (Mem.WF m) := by
  unfold Mem.WF; infer_instance

/-- Reachability from a node along child edges. -/
inductive Reaches (m : Mem) : Nat → Nat → Prop
  | refl (a : Nat) : Reaches m a a
  | step {a c b : Nat} : c ∈ m.childrenOf a → Reaches m c b → Reaches m a b

instance {ε α : Type} [DecidableEq ε] [DecidableEq α] :
    DecidableEq (Except ε α) := fun a b =>
  match a, b with
  | .ok x, .ok y =>
    if h : x = y then isTrue (by rw [h])
    else isFalse (by intro hh; injection hh; contradiction)
  | .error e, .error f =>
    if h : e = f then isTrue (by rw [h])
    else isFalse (by intro hh; injection hh; contradiction)
  | .ok _, .error _ => isFalse (by intro hh; exact Except.noConfusion hh)
  | .error _, .ok _ => isFalse (by intro hh; exact Except.noConfusion hh)

/-! ### Step equations of the UnmarshalXML token loop -/

theorem unmarshalLoopR_nil (cur : Node) :
    unmarshalLoopR cur [] = .error "unexpected EOF" := by
  simp [unmarshalLoopR, unmarshalLoop]

theorem unmarshalLoopR_err (cur : Node) (e : String) (ts : List Token) :
    unmarshalLoopR cur (.err e :: ts) = .error e := by
  simp [unmarshalLoopR, unmarshalLoop]

theorem unmarshalLoopR_text (cur : Node) (s : String) (ts : List Token) :
    unmarshalLoopR cur (.text s :: ts) = unmarshalLoopR (setText cur s) ts := by
  rw [unmarshalLoopR, unmarshalLoop]
  cases h : unmarshalLoop (setText cur s) ts with
  | error e => simp [unmarshalLoopR, h]
  | ok p => simp [unmarshalLoopR, h]

theorem unmarshalLoopR_other (cur : Node) (ts : List Token) :
    unmarshalLoopR cur (.other :: ts) = unmarshalLoopR cur ts := by
  rw [unmarshalLoopR, unmarshalLoop]
  cases h : unmarshalLoop cur ts with
  | error e => simp [unmarshalLoopR, h]
  | ok p => simp [unmarshalLoopR, h]

theorem unmarshalLoopR_end (cur : Node) (name : String) (ts : List Token) :
    unmarshalLoopR cur (.endT name :: ts) =
      if name == cur.tag then .ok (cur, ts) else unmarshalLoopR cur ts := by
  rw [unmarshalLoopR, unmarshalLoop]
  by_cases hn : name == cur.tag
  · simp [hn]
  · simp only [hn, if_false]
    cases h : unmarshalLoop cur ts with
    | error e => simp [unmarshalLoopR, h]
    | ok p => simp [unmarshalLoopR, h]

theorem unmarshalLoopR_start (cur : Node) (name : String)
    (attrs : List (String × String)) (ts : List Token) :
    unmarshalLoopR cur (.start name attrs :: ts) =
      match unmarshalLoopR (initNode name attrs) ts with
      | .error e => .error e
      | .ok (child, rest) => unmarshalLoopR (addChild cur child) rest := by
  rw [unmarshalLoopR, unmarshalLoop]
  cases h : unmarshalLoop (initNode name attrs) ts with
  | error e => simp [unmarshalLoopR, h]
  | ok p =>
    simp only [unmarshalLoopR, h]
    cases h2 : unmarshalLoop (addChild cur p.1) p.2.1 with
    | error e => simp [h2]
    | ok q => simp [h2]

/-! ### Association-list (Go map) lemmas -/

theorem mapAssign_append (acc : List (String × String)) (k v : String)
    (h : ∀ kv ∈ acc, kv.1 ≠ k) : mapAssign acc k v = acc ++ [(k, v)] := by
  induction acc with
  | nil => rfl
  | cons hd tl ih =>
    have hhd : hd.1 ≠ k := h hd (by simp)
    obtain ⟨k', v'⟩ := hd
    simp only [mapAssign]
    rw [if_neg (by simpa using hhd)]
    simp only [List.cons_append, List.cons.injEq, true_and]
    exact ih (fun kv hkv => h kv (by simp [hkv]))

theorem foldAssign_append (p : List (String × String)) :
    ∀ acc, keysNodup p = true → (∀ kv ∈ p, ∀ kw ∈ acc, kv.1 ≠ kw.1) →
      p.foldl (fun m kv => mapAssign m kv.1 kv.2) acc = acc ++ p := by
  induction p with
  | nil => intro acc _ _; simp
  | cons hd tl ih =>
    intro acc hnd hdisj
    obtain ⟨k, v⟩ := hd
    simp only [keysNodup, Bool.and_eq_true, Bool.not_eq_true'] at hnd
    simp only [List.foldl_cons]
    rw [mapAssign_append acc k v (fun kw hkw => (hdisj (k, v) (by simp) kw hkw).symm)]
    rw [ih (acc ++ [(k, v)]) hnd.2 ?_]
    · simp
    · intro kv hkv kw hkw
      rcases List.mem_append.1 hkw with hacc | hk
      · exact hdisj kv (by simp [hkv]) kw hacc
      · have hkw' : kw = (k, v) := by simpa using hk
        subst hkw'
        intro heq
        have : tl.any (fun kv' => kv'.1 == k) = true :=
          List.any_eq_true.2 ⟨kv, hkv, by simp [heq]⟩
        rw [hnd.1] at this
        exact Bool.false_ne_true this

theorem foldAssign_eq_self (p : List (String × String))
    (hnd : keysNodup p = true) :
    p.foldl (fun m kv => mapAssign m kv.1 kv.2) [] = p := by
  simpa using foldAssign_append p [] hnd (by simp)

theorem lookupAttr_mem : ∀ {l : List (String × String)} {k v : String},
    lookupAttr l k = some v → (k, v) ∈ l := by
  intro l
  induction l with
  | nil => intro k v h; simp [lookupAttr] at h
  | cons hd tl ih =>
    intro k v h
    obtain ⟨k', v'⟩ := hd
    simp only [lookupAttr] at h
    by_cases hk : (k' == k) = true
    · have hkk : k' = k := by simpa using hk
      rw [if_pos hk] at h
      have hv : v' = v := by simpa using h
      subst hkk; subst hv
      exact List.mem_cons_self _ _
    · rw [if_neg hk] at h
      exact List.mem_cons_of_mem _ (ih h)

theorem mem_lookupAttr : ∀ {l : List (String × String)} {k v : String},
    keysNodup l = true → (k, v) ∈ l → lookupAttr l k = some v := by
  intro l
  induction l with
  | nil => intro k v _ h; simp at h
  | cons hd tl ih =>
    intro k v hnd h
    obtain ⟨k', v'⟩ := hd
    simp only [keysNodup, Bool.and_eq_true, Bool.not_eq_true'] at hnd
    rcases List.mem_cons.1 h with heq | htl
    · obtain ⟨h1, h2⟩ := Prod.mk.inj heq
      subst h1; subst h2
      simp [lookupAttr]
    · simp only [lookupAttr]
      by_cases hk : (k' == k) = true
      · exfalso
        have hk' : k' = k := by simpa using hk
        have : tl.any (fun kv' => kv'.1 == k') = true :=
          List.any_eq_true.2 ⟨(k, v), htl, by simp [hk']⟩
        rw [hnd.1] at this
        exact Bool.false_ne_true this
      · rw [if_neg hk]
        exact ih hnd.2 htl

theorem lookupAttr_isSome_of_mem : ∀ {l : List (String × String)} {k v : String},
    (k, v) ∈ l → ∃ w, lookupAttr l k = some w := by
  intro l
  induction l with
  | nil => intro k v h; simp at h
  | cons hd tl ih =>
    intro k v h
    obtain ⟨k', v'⟩ := hd
    simp only [lookupAttr]
    by_cases hk : (k' == k) = true
    · exact ⟨v', by rw [if_pos hk]⟩
    · rcases List.mem_cons.1 h with heq | htl
      · exfalso
        obtain ⟨h1, h2⟩ := Prod.mk.inj heq
        simp [h1] at hk
      · rw [if_neg hk]
        exact ih htl

theorem keysNodup_iff (l : List (String × String)) :
    keysNodup l = true ↔ (l.map Prod.fst).Nodup := by
  induction l with
  | nil => simp [keysNodup]
  | cons hd tl ih =>
    obtain ⟨k, v⟩ := hd
    simp only [keysNodup, Bool.and_eq_true, Bool.not_eq_true', List.map_cons,
      List.nodup_cons, ih]
    constructor
    · rintro ⟨h1, h2⟩
      refine ⟨fun hmem => ?_, h2⟩
      obtain ⟨kv, hkv, hfst⟩ := List.mem_map.1 hmem
      have : tl.any (fun kv' => kv'.1 == k) = true :=
        List.any_eq_true.2 ⟨kv, hkv, by simp [hfst]⟩
      rw [h1] at this
      exact Bool.false_ne_true this
    · rintro ⟨h1, h2⟩
      refine ⟨?_, h2⟩
      by_contra hany
      rw [Bool.not_eq_false] at hany
      obtain ⟨kv, hkv, hfst⟩ := List.any_eq_true.1 hany
      exact h1 (List.mem_map.2 ⟨kv, hkv, by simpa using hfst⟩)

theorem keysNodup_of_perm {p l : List (String × String)}
    (hperm : p.Perm l) (hnd : keysNodup l = true) : keysNodup p = true := by
  rw [keysNodup_iff] at hnd ⊢
  exact ((hperm.map Prod.fst).symm).nodup hnd

theorem lookupAttr_of_perm {p l : List (String × String)}
    (hnd : keysNodup l = true) (hperm : p.Perm l) (k : String) :
    lookupAttr p k = lookupAttr l k := by
  have hndp : keysNodup p = true := keysNodup_of_perm hperm hnd
  cases h : lookupAttr l k with
  | some v => exact mem_lookupAttr hndp (hperm.mem_iff.2 (lookupAttr_mem h))
  | none =>
    cases h2 : lookupAttr p k with
    | none => rfl
    | some v =>
      obtain ⟨w, hw⟩ :=
        lookupAttr_isSome_of_mem (hperm.mem_iff.1 (lookupAttr_mem h2))
      rw [h] at hw
      exact Option.noConfusion hw

theorem attrsEquiv_fold (a : List (String × String))
    (it : List (String × String) → List (String × String))
    (hperm : (it a).Perm a) (hnd : keysNodup a = true) :
    attrsEquiv ((it a).foldl (fun m kv => mapAssign m kv.1 kv.2) []) a = true := by
  have hndp : keysNodup (it a) = true := keysNodup_of_perm hperm hnd
  rw [foldAssign_eq_self (it a) hndp]
  simp only [attrsEquiv, Bool.and_eq_true, List.all_eq_true]
  constructor
  · intro kv hkv
    have : lookupAttr a kv.1 = some kv.2 := mem_lookupAttr hnd (hperm.mem_iff.1 hkv)
    simp [this]
  · intro kv hkv
    have : lookupAttr (it a) kv.1 = some kv.2 :=
      mem_lookupAttr hndp (hperm.mem_iff.2 hkv)
    simp [this]

/-! ### Trim lemmas -/

theorem trimList_eq_rdrop (l : List Char) :
    trimList l = List.rdropWhile isSpaceChar (List.dropWhile isSpaceChar l) := rfl

theorem dropWhile_rdropWhile_dropWhile (l : List Char) :
    List.dropWhile isSpaceChar
        (List.rdropWhile isSpaceChar (List.dropWhile isSpaceChar l)) =
      List.rdropWhile isSpaceChar (List.dropWhile isSpaceChar l) := by
  set l' := List.dropWhile isSpaceChar l with hl'
  obtain ⟨t, ht⟩ := List.rdropWhile_prefix isSpaceChar l'
  cases hr : List.rdropWhile isSpaceChar l' with
  | nil => simp
  | cons c rest =>
    rw [hr] at ht
    have hc : isSpaceChar c = false := by
      have hself : List.dropWhile isSpaceChar l' = l' := List.dropWhile_idempotent _ _
      have : l' = c :: (rest ++ t) := by rw [← ht]; simp
      rw [this] at hself
      by_contra hcc
      rw [Bool.not_eq_false] at hcc
      simp [List.dropWhile, hcc] at hself
      have hlen := congrArg List.length hself
      have hle : (List.dropWhile isSpaceChar (rest ++ t)).length ≤ (rest ++ t).length :=
        (List.dropWhile_suffix isSpaceChar).sublist.length_le
      simp at hlen hle
      omega
    simp [List.dropWhile, hc]

theorem trimList_idem (l : List Char) : trimList (trimList l) = trimList l := by
  rw [trimList_eq_rdrop, trimList_eq_rdrop, dropWhile_rdropWhile_dropWhile,
    List.rdropWhile_idempotent]

theorem trimStr_idem (s : String) : trimStr (trimStr s) = trimStr s :=
  congrArg String.mk (trimList_idem s.data)

/-! ### Round-trip core -/

/-- Repeated `addChild`, for describing the state of the parse loop after
a run of child elements. -/
def addChildren : Node → List Node → Node
  | n, [] => n
  | n, c :: cs => addChildren (addChild n c) cs

theorem addChildren_mk (t x : String) (a : List (String × String)) :
    ∀ (l cs0 : List Node), addChildren (.mk t x a cs0) l = .mk t x a (cs0 ++ l) := by
  intro l
  induction l with
  | nil => intro cs0; simp [addChildren]
  | cons c cs ih =>
    intro cs0
    simp only [addChildren, addChild]
    rw [ih (cs0 ++ [c])]
    simp

theorem nsize_pos (n : Node) : 1 ≤ nsize n := by
  cases n; simp only [nsize]; omega

theorem nsize_le_lsize_of_mem : ∀ {cs : List Node} {c : Node}, c ∈ cs →
    nsize c ≤ lsize cs := by
  intro cs
  induction cs with
  | nil => intro c h; simp at h
  | cons hd tl ih =>
    intro c h
    rcases List.mem_cons.1 h with heq | htl
    · subst heq; simp only [lsize]; omega
    · have := ih htl
      simp only [lsize]; omega

theorem wfList_mem : ∀ {cs : List Node} {c : Node}, wfList cs = true → c ∈ cs →
    wfNode c = true := by
  intro cs
  induction cs with
  | nil => intro c _ h; simp at h
  | cons hd tl ih =>
    intro c hwf h
    simp only [wfList, Bool.and_eq_true] at hwf
    rcases List.mem_cons.1 h with heq | htl
    · subst heq; exact hwf.1
    · exact ih hwf.2 htl

theorem tag_initNode (name : String) (attrs : List (String × String)) :
    (initNode name attrs).tag = name := rfl

theorem trimStr_empty : trimStr "" = "" := by decide

/-- Consuming the serialized form of a run of children: each element in
the token list is parsed and appended to the current node, in order.
The hypothesis packages the single-element statement for every child. -/
theorem parse_children (it : List (String × String) → List (String × String)) :
    ∀ (cs : List Node),
      (∀ c ∈ cs, ∀ toks, marshalXML it c = .ok toks →
        ∃ inner, toks = Token.start c.tag (it c.attributes) :: inner ∧
          ∀ rest, unmarshalLoopR (initNode c.tag (it c.attributes)) (inner ++ rest) =
            .ok (roundNode it c, rest)) →
      ∀ toks, marshalChildren it cs = .ok toks →
        ∀ cur rest, unmarshalLoopR cur (toks ++ rest) =
          unmarshalLoopR (addChildren cur (roundList it cs)) rest := by
  intro cs
  induction cs with
  | nil =>
    intro _ toks hm cur rest
    simp only [marshalChildren] at hm
    have : toks = [] := (Except.ok.inj hm).symm
    subst this
    simp [addChildren, roundList]
  | cons c cs' ih =>
    intro hall toks hm cur rest
    simp only [marshalChildren] at hm
    cases hm1 : marshalXML it c with
    | error e => rw [hm1] at hm; exact Except.noConfusion hm
    | ok t1 =>
      rw [hm1] at hm
      cases hm2 : marshalChildren it cs' with
      | error e => rw [hm2] at hm; exact Except.noConfusion hm
      | ok t2 =>
        rw [hm2] at hm
        have htoks : toks = t1 ++ t2 := by
          simp only [] at hm
          exact (Except.ok.inj hm).symm
        subst htoks
        obtain ⟨inner, ht1, hstep⟩ := hall c (by simp) t1 hm1
        subst ht1
        simp only [List.cons_append, List.append_assoc]
        rw [unmarshalLoopR_start]
        rw [hstep (t2 ++ rest)]
        simp only []
        rw [ih (fun c' hc' => hall c' (by simp [hc'])) t2 hm2
          (addChild cur (roundNode it c)) rest]
        rfl

/-- The element-level round trip at the token level: if MarshalXML
serializes a node without error, UnmarshalXML's loop consumes exactly the
emitted tokens and produces the node's parse image `roundNode`. -/
theorem parse_marshal : ∀ (k : Nat) (n : Node), nsize n ≤ k →
    ∀ (it : List (String × String) → List (String × String)) (toks : List Token),
      marshalXML it n = .ok toks →
      ∃ inner, toks = Token.start n.tag (it n.attributes) :: inner ∧
        ∀ rest, unmarshalLoopR (initNode n.tag (it n.attributes)) (inner ++ rest) =
          .ok (roundNode it n, rest) := by
  intro k
  induction k with
  | zero =>
    intro n h
    have := nsize_pos n
    omega
  | succ k ih =>
    intro n hsz it toks hm
    obtain ⟨t, x, a, cs⟩ := n
    have hcs : ∀ c ∈ cs, nsize c ≤ k := by
      intro c hc
      have h1 := nsize_le_lsize_of_mem hc
      simp only [nsize] at hsz
      omega
    have hall : ∀ c ∈ cs, ∀ toks', marshalXML it c = .ok toks' →
        ∃ inner, toks' = Token.start c.tag (it c.attributes) :: inner ∧
          ∀ rest, unmarshalLoopR (initNode c.tag (it c.attributes)) (inner ++ rest) =
            .ok (roundNode it c, rest) := by
      intro c hc toks' hm'
      exact ih c (hcs c hc) it toks' hm'
    simp only [marshalXML] at hm
    by_cases hb : (cs.isEmpty && (x == "")) = true
    · rw [if_pos hb] at hm
      simp only [Bool.and_eq_true, List.isEmpty_iff] at hb
      obtain ⟨hcs0, hx0⟩ := hb
      have hx0' : x = "" := by simpa using hx0
      subst hcs0; subst hx0'
      cases hchk : encTokenCheck (.start t (it a)) with
      | error e => rw [hchk] at hm; exact Except.noConfusion hm
      | ok u =>
        rw [hchk] at hm
        have htoks : toks = [.start t (it a), .endT t] := by
          simp only [] at hm
          exact (Except.ok.inj hm).symm
        subst htoks
        refine ⟨[.endT t], by simp [Node.tag, Node.attributes], ?_⟩
        intro rest
        simp only [List.cons_append, List.nil_append]
        rw [unmarshalLoopR_end]
        simp [initNode, Node.tag, Node.attributes, roundNode, roundList, trimStr_empty]
    · rw [if_neg hb] at hm
      cases hchk : encTokenCheck (.start t (it a)) with
      | error e => rw [hchk] at hm; exact Except.noConfusion hm
      | ok u =>
        rw [hchk] at hm
        cases hmc : marshalChildren it cs with
        | error e => rw [hmc] at hm; exact Except.noConfusion hm
        | ok childToks =>
          rw [hmc] at hm
          have htoks : toks = Token.start t (it a) ::
              ((if x == "" then [] else [.text x]) ++ childToks ++ [.endT t]) := by
            simp only [] at hm
            exact (Except.ok.inj hm).symm
          subst htoks
          refine ⟨(if x == "" then [] else [.text x]) ++ childToks ++ [.endT t],
            by simp [Node.tag, Node.attributes], ?_⟩
          intro rest
          simp only [Node.tag, Node.attributes]
          by_cases hx : (x == "") = true
          · rw [if_pos hx]
            simp only [List.nil_append, List.append_assoc, List.cons_append,
              List.singleton_append]
            rw [parse_children it cs hall childToks hmc (initNode t (it a))
              (Token.endT t :: rest)]
            simp only [initNode]
            rw [addChildren_mk]
            simp only [List.nil_append]
            rw [unmarshalLoopR_end]
            have hx' : x = "" := by simpa using hx
            subst hx'
            simp [Node.tag, roundNode, trimStr_empty]
          · rw [if_neg hx]
            simp only [List.append_assoc, List.cons_append, List.singleton_append,
              List.nil_append]
            rw [unmarshalLoopR_text]
            simp only [initNode, setText]
            rw [parse_children it cs hall childToks hmc _ (Token.endT t :: rest)]
            rw [addChildren_mk]
            simp only [List.nil_append]
            rw [unmarshalLoopR_end]
            simp [Node.tag, roundNode]

theorem marshalChildren_ok (it : List (String × String) → List (String × String)) :
    ∀ (cs : List Node), (∀ c ∈ cs, ∃ toks, marshalXML it c = .ok toks) →
      ∃ toks, marshalChildren it cs = .ok toks := by
  intro cs
  induction cs with
  | nil => intro _; exact ⟨[], rfl⟩
  | cons c cs' ih =>
    intro hall
    obtain ⟨t1, hm1⟩ := hall c (by simp)
    obtain ⟨t2, hm2⟩ := ih (fun c' hc' => hall c' (by simp [hc']))
    exact ⟨t1 ++ t2, by simp only [marshalChildren]; rw [hm1, hm2]⟩

theorem marshalXML_ok : ∀ (k : Nat) (n : Node), nsize n ≤ k → wfNode n = true →
    ∀ it, ∃ toks, marshalXML it n = .ok toks := by
  intro k
  induction k with
  | zero =>
    intro n h
    have := nsize_pos n
    omega
  | succ k ih =>
    intro n hsz hwf it
    obtain ⟨t, x, a, cs⟩ := n
    simp only [wfNode, Bool.and_eq_true] at hwf
    obtain ⟨⟨⟨ht, _⟩, _⟩, hwcs⟩ := hwf
    have ht0 : ¬((t == "") = true) := by simpa using ht
    have hchk : encTokenCheck (.start t (it a)) = .ok () := by
      simp [encTokenCheck, ht0]
    by_cases hb : (cs.isEmpty && (x == "")) = true
    · exact ⟨[.start t (it a), .endT t], by
        simp only [marshalXML]; rw [if_pos hb, hchk]⟩
    · have hcsz : ∀ c ∈ cs, nsize c ≤ k := by
        intro c hc
        have h1 := nsize_le_lsize_of_mem hc
        simp only [nsize] at hsz
        omega
      obtain ⟨childToks, hmc⟩ := marshalChildren_ok it cs
        (fun c hc => ih c (hcsz c hc) (wfList_mem hwcs hc) it)
      exact ⟨_, by simp only [marshalXML]; rw [if_neg hb, hchk, hmc]⟩

theorem listEquiv_roundList (it : List (String × String) → List (String × String)) :
    ∀ (cs : List Node), (∀ c ∈ cs, nodeEquiv (roundNode it c) c = true) →
      listEquiv (roundList it cs) cs = true := by
  intro cs
  induction cs with
  | nil => intro _; rfl
  | cons c cs' ih =>
    intro hall
    simp only [roundList, listEquiv, Bool.and_eq_true]
    exact ⟨hall c (by simp), ih (fun c' hc' => hall c' (by simp [hc']))⟩

theorem nodeEquiv_roundNode : ∀ (k : Nat) (n : Node), nsize n ≤ k →
    wfNode n = true →
    ∀ it, (∀ l : List (String × String), (it l).Perm l) →
      nodeEquiv (roundNode it n) n = true := by
  intro k
  induction k with
  | zero =>
    intro n h
    have := nsize_pos n
    omega
  | succ k ih =>
    intro n hsz hwf it hit
    obtain ⟨t, x, a, cs⟩ := n
    simp only [wfNode, Bool.and_eq_true] at hwf
    obtain ⟨⟨⟨_, _⟩, hnd⟩, hwcs⟩ := hwf
    have hcsz : ∀ c ∈ cs, nsize c ≤ k := by
      intro c hc
      have h1 := nsize_le_lsize_of_mem hc
      simp only [nsize] at hsz
      omega
    simp only [roundNode, nodeEquiv, Bool.and_eq_true]
    refine ⟨⟨⟨by simp, ?_⟩, ?_⟩, ?_⟩
    · rw [trimStr_idem]; simp
    · exact attrsEquiv_fold a it (hit a) hnd
    · exact listEquiv_roundList it cs
        (fun c hc => ih c (hcsz c hc) (wfList_mem hwcs hc) it hit)

/-- Claim C1: for every Node tree satisfying the round-trip preconditions
(non-empty tags, attributes with non-empty and pairwise distinct keys;
one text slot per node is inherent in the data model), serializing via
MarshalXML — under any admissible attribute iteration order — and
deserializing the resulting token stream via UnmarshalXML succeeds and
yields a tree equal to the original in tag, attribute set and values,
inner text, and child order, with attribute order and insignificant
whitespace excluded from the equality. -/
theorem roundTrip_deserialize_serialize
    (it : List (String × String) → List (String × String))
    (hit : ∀ l : List (String × String), (it l).Perm l)
    (n : Node) (hwf : wfNode n = true) :
    ∃ toks n', marshalXML it n = .ok toks ∧
      deserializeTokens toks = .ok n' ∧ nodeEquiv n' n = true := by
  obtain ⟨toks, hm⟩ := marshalXML_ok (nsize n) n le_rfl hwf it
  obtain ⟨inner, htoks, hstep⟩ := parse_marshal (nsize n) n le_rfl it toks hm
  subst htoks
  refine ⟨_, roundNode it n, hm, ?_, ?_⟩
  · have hs := hstep []
    rw [List.append_nil] at hs
    simp only [deserializeTokens]
    rw [hs]
  · exact nodeEquiv_roundNode (nsize n) n le_rfl hwf it hit

/-- Witness for C1 at a concrete tree and a non-identity iteration order. -/
theorem roundTrip_deserialize_serialize_witness :
    ∃ toks n', marshalXML List.reverse
        (Node.mk "a" " hi " [("x", "1"), ("y", "2")] [Node.mk "b" "t" [] []]) = .ok toks ∧
      deserializeTokens toks = .ok n' ∧
      nodeEquiv n' (Node.mk "a" " hi " [("x", "1"), ("y", "2")] [Node.mk "b" "t" [] []]) = true :=
  roundTrip_deserialize_serialize List.reverse (fun l => l.reverse_perm)
    (Node.mk "a" " hi " [("x", "1"), ("y", "2")] [Node.mk "b" "t" [] []]) (by decide)

/-! ### FindChild -/

theorem findFirst_eq_find? (tag : String) :
    ∀ (cs : List Node),
      (∀ c ∈ cs, findChild c tag = (preorder c).find? (fun m => m.tag == tag)) →
      findFirst cs tag = (preorderList cs).find? (fun m => m.tag == tag) := by
  intro cs
  induction cs with
  | nil => intro _; rfl
  | cons c cs' ih =>
    intro hall
    simp only [findFirst, preorderList]
    rw [List.find?_append]
    rw [← hall c (by simp)]
    cases h : findChild c tag with
    | some f => simp [Option.or]
    | none => simp [Option.or, ih (fun c' hc' => hall c' (by simp [hc']))]

theorem findChild_eq_find? : ∀ (k : Nat) (n : Node), nsize n ≤ k →
    ∀ tag, findChild n tag = (preorder n).find? (fun m => m.tag == tag) := by
  intro k
  induction k with
  | zero =>
    intro n h
    have := nsize_pos n
    omega
  | succ k ih =>
    intro n hsz tag
    obtain ⟨t, x, a, cs⟩ := n
    have hcsz : ∀ c ∈ cs, nsize c ≤ k := by
      intro c hc
      have h1 := nsize_le_lsize_of_mem hc
      simp only [nsize] at hsz
      omega
    simp only [findChild, preorder]
    by_cases ht : (t == tag) = true
    · rw [if_pos ht]
      rw [List.find?_cons_of_pos _ (by simpa [Node.tag] using ht)]
    · rw [if_neg ht]
      rw [List.find?_cons_of_neg _ (by simpa [Node.tag] using ht)]
      exact findFirst_eq_find? tag cs (fun c hc => ih c (hcsz c hc) tag)

/-- Claim C5: FindChild is the first match of a pre-order search that
checks the receiver first: it equals the first entry of the pre-order
listing of the subtree whose tag is the argument (so, being a function of
the tree and the tag, repeated calls return the identical node), and when
no node of the subtree carries the tag it returns "not found" (none). -/
theorem findChild_preorder_first (n : Node) (tag : String) :
    findChild n tag = (preorder n).find? (fun m => m.tag == tag) ∧
    ((∀ m ∈ preorder n, m.tag ≠ tag) → findChild n tag = none) := by
  refine ⟨findChild_eq_find? (nsize n) n le_rfl tag, ?_⟩
  intro habs
  rw [findChild_eq_find? (nsize n) n le_rfl tag]
  rw [List.find?_eq_none]
  intro m hm
  simpa using habs m hm

/-- Witness for C5 at a concrete tree and an absent tag. -/
theorem findChild_preorder_first_witness :
    findChild (Node.mk "a" "" [] [Node.mk "b" "" [] []]) "z" = none :=
  (findChild_preorder_first (Node.mk "a" "" [] [Node.mk "b" "" [] []]) "z").2
    (by decide)

/-- Claim C9: FindChild on an absent (nil) receiver returns "not found"
(nil) for every tag, instead of failing — the nil guard of FindChild. -/
theorem findChild_nil_receiver (tag : String) :
    findChildOpt none tag = none := rfl

/-! ### Serialization determinism (attribute emission) -/

/-- Claim C2 (refuted, code bug): the serializer emits attributes in the
order `range n.Attributes` yields them, which Go randomizes between runs;
two runs over the same unchanged tree — the tree of the repository's own
TestMarshalXML — with two admissible iteration orders (both permutations
of the stored entries) produce different output texts, so attribute
emission is not deterministic across serializations. -/
theorem marshal_attr_order_nondeterministic :
    (∀ l : List (String × String), (id l).Perm l) ∧
    (∀ l : List (String × String), (List.reverse l).Perm l) ∧
    serializeNode id (Node.mk "library" ""
        [("name", "City Library"), ("location", "Downtown"), ("rating", "4.3")] []) ≠
      serializeNode List.reverse (Node.mk "library" ""
        [("name", "City Library"), ("location", "Downtown"), ("rating", "4.3")] []) :=
  ⟨fun l => List.Perm.refl l, fun l => l.reverse_perm, by decide⟩

/-! ### Error handling of Bytes and String -/

/-- Counterexample to Claim C3: at the node with an empty tag the
underlying marshalling fails with an error, but Bytes returns the nil
sentinel (none) and String the empty string — the error value is
discarded, not surfaced to the caller. -/
theorem bytes_swallows_error_counterexample :
    serializeNode id (Node.mk "" "" [] []) = .error "xml: start tag with no name" ∧
    bytesGo (Node.mk "" "" [] []) = none ∧
    stringGo (Node.mk "" "" [] []) = "" := by
  refine ⟨by decide, by decide, by decide⟩

/-- Claim C3 as amended: MarshalXML propagates encoder failures, but
Bytes catches the marshalling error and returns nil, and String returns
the empty string: failure of the byte/string representation is signalled
only through a nil/empty sentinel and the error value is dropped. -/
theorem bytes_string_error_sentinel (n : Node) :
    (∃ s, serializeNode id n = .ok s ∧ bytesGo n = some s ∧ stringGo n = s) ∨
    (∃ e, serializeNode id n = .error e ∧ bytesGo n = none ∧ stringGo n = "") := by
  cases h : serializeNode id n with
  | ok s => exact Or.inl ⟨s, rfl, by simp [bytesGo, h], by simp [stringGo, bytesGo, h]⟩
  | error e => exact Or.inr ⟨e, rfl, by simp [bytesGo, h], by simp [stringGo, bytesGo, h]⟩

/-! ### Deserialization error handling -/

/-- Counterexample to Claim C4: the token stream of `<a></b></a>` is not
well-formed markup (its end-tag `b` does not match the open element `a`),
yet UnmarshalXML succeeds: the mismatched end-tag token is silently
skipped rather than aborting the parse. -/
theorem mismatched_end_tag_skipped_counterexample :
    deserializeTokens [Token.start "a" [], Token.endT "b", Token.endT "a"] =
      .ok (Node.mk "a" "" [] []) := by
  simp [deserializeTokens, unmarshalLoopR, unmarshalLoop, initNode, Node.tag]

/-- Claim C4 as amended: errors reported by the token reader (malformed
markup, unexpected end-of-input) abort the entire parse and propagate to
the caller, at the loop level and at the top level; but an end-tag token
whose name differs from the open element's tag, delivered by the reader
without error, is silently skipped and parsing continues. -/
theorem unmarshal_error_propagation :
    (∀ (cur : Node) (e : String) (ts : List Token),
      unmarshalLoopR cur (Token.err e :: ts) = .error e) ∧
    (∀ cur : Node, unmarshalLoopR cur [] = .error "unexpected EOF") ∧
    (∀ (e : String) (ts : List Token),
      deserializeTokens (Token.err e :: ts) = .error e) ∧
    (∀ (cur : Node) (name : String) (ts : List Token), name ≠ cur.tag →
      unmarshalLoopR cur (Token.endT name :: ts) = unmarshalLoopR cur ts) := by
  refine ⟨fun cur e ts => unmarshalLoopR_err cur e ts,
    fun cur => unmarshalLoopR_nil cur,
    fun e ts => rfl,
    fun cur name ts hne => ?_⟩
  rw [unmarshalLoopR_end]
  rw [if_neg (by simpa using hne)]

/-- Witness for C4's amended claim: a mismatched end-tag token is skipped
(the loop continues on the rest of the stream). -/
theorem unmarshal_error_propagation_witness :
    unmarshalLoopR (Node.mk "a" "" [] []) [Token.endT "b"] =
      unmarshalLoopR (Node.mk "a" "" [] []) [] :=
  unmarshal_error_propagation.2.2.2 (Node.mk "a" "" [] []) "b" [] (by decide)

/-! ### Character-data handling of the deserializer -/

/-- Claim C6: every character-data token is stripped of leading and
trailing whitespace and stored as the node's inner text, overwriting any
previously stored value at that level (conjunct 1); whitespace-only text
collapses to the empty string (conjunct 2); when text segments are
interleaved with a child element, only the last-seen segment survives —
segments are not concatenated (conjunct 3). -/
theorem charData_last_segment_wins :
    (∀ (t x : String) (a : List (String × String)) (cs : List Node)
        (s : String) (ts : List Token),
      unmarshalLoopR (Node.mk t x a cs) (Token.text s :: ts) =
        unmarshalLoopR (Node.mk t (trimStr s) a cs) ts) ∧
    (∀ s : String, (∀ ch ∈ s.data, isSpaceChar ch = true) → trimStr s = "") ∧
    (∀ (it : List (String × String) → List (String × String))
        (t s1 s2 : String) (attrs : List (String × String))
        (c : Node) (ctoks : List Token),
      marshalXML it c = .ok ctoks →
      deserializeTokens (Token.start t attrs :: Token.text s1 ::
          (ctoks ++ [Token.text s2, Token.endT t])) =
        .ok (Node.mk t (trimStr s2)
          (attrs.foldl (fun m kv => mapAssign m kv.1 kv.2) []) [roundNode it c])) := by
  refine ⟨?_, ?_, ?_⟩
  · intro t x a cs s ts
    rw [unmarshalLoopR_text]
    simp only [setText]
  · intro s hsp
    have h1 : s.data.dropWhile isSpaceChar = [] :=
      List.dropWhile_eq_nil_iff.2 (fun x hx => hsp x hx)
    simp only [trimStr, trimList, h1, List.reverse_nil, List.dropWhile_nil]
  · intro it t s1 s2 attrs c ctoks hm
    have hall : ∀ c' ∈ [c], ∀ toks', marshalXML it c' = .ok toks' →
        ∃ inner, toks' = Token.start c'.tag (it c'.attributes) :: inner ∧
          ∀ rest, unmarshalLoopR (initNode c'.tag (it c'.attributes)) (inner ++ rest) =
            .ok (roundNode it c', rest) := by
      intro c' hc' toks' hm'
      have hc'' : c' = c := by simpa using hc'
      subst hc''
      exact parse_marshal (nsize c') c' le_rfl it toks' hm'
    have hmc : marshalChildren it [c] = .ok ctoks := by
      simp only [marshalChildren]
      rw [hm]
      simp
    have hrun := parse_children it [c] hall ctoks hmc
      (Node.mk t (trimStr s1) (attrs.foldl (fun m kv => mapAssign m kv.1 kv.2) []) [])
      [Token.text s2, Token.endT t]
    have hstep1 : unmarshalLoopR (initNode t attrs)
        (Token.text s1 :: (ctoks ++ [Token.text s2, Token.endT t])) =
        .ok (Node.mk t (trimStr s2)
          (attrs.foldl (fun m kv => mapAssign m kv.1 kv.2) []) [roundNode it c], []) := by
      rw [unmarshalLoopR_text]
      simp only [initNode, setText]
      rw [hrun]
      simp only [roundList, addChildren, addChild, List.nil_append]
      rw [unmarshalLoopR_text]
      simp only [setText]
      rw [unmarshalLoopR_end]
      simp [Node.tag]
    simp only [deserializeTokens]
    rw [hstep1]

/-- Witness for C6: two whitespace-padded segments around a child
element; the parsed inner text is the trimmed second segment. -/
theorem charData_last_segment_wins_witness :
    deserializeTokens [Token.start "a" [("k", "v")], Token.text " x ",
        Token.start "b" [], Token.endT "b", Token.text " y ", Token.endT "a"] =
      .ok (Node.mk "a" (trimStr " y ")
        ([("k", "v")].foldl (fun m kv => mapAssign m kv.1 kv.2) [])
        [roundNode id (Node.mk "b" "" [] [])]) :=
  charData_last_segment_wins.2.2 id "a" " x " " y " [("k", "v")]
    (Node.mk "b" "" [] []) [Token.start "b" [], Token.endT "b"] (by decide)

/-! ### Heap primitives -/

theorem Mem.len_setNode (m : Mem) (i : Nat) (h : HNode) :
    (m.setNode i h).len = m.len := by
  simp [Mem.setNode, Mem.len]

theorem Mem.get_setNode_self (m : Mem) (i : Nat) (h : HNode) (hi : i < m.len) :
    (m.setNode i h).get i = some h := by
  simp [Mem.setNode, Mem.get, Mem.len] at *
  rw [List.getElem?_set_self' ]
  · simp [hi]

theorem Mem.get_setNode_other (m : Mem) (i : Nat) (h : HNode) (j : Nat)
    (hj : j ≠ i) : (m.setNode i h).get j = m.get j := by
  simp [Mem.setNode, Mem.get]
  rw [List.getElem?_set_ne (fun he => hj he.symm)]

theorem Mem.get_some_of_lt (m : Mem) (i : Nat) (hi : i < m.len) :
    ∃ h, m.get i = some h := by
  simp only [Mem.get]
  exact ⟨m.nodes[i], List.getElem?_eq_getElem hi⟩

theorem Mem.get_none_of_ge (m : Mem) (i : Nat) (hi : m.len ≤ i) :
    m.get i = none := by
  simp only [Mem.get]
  exact List.getElem?_eq_none hi

theorem Mem.len_modifyNode (m : Mem) (i : Nat) (f : HNode → HNode) :
    (m.modifyNode i f).len = m.len := by
  unfold Mem.modifyNode
  cases h : m.get i with
  | none => rfl
  | some hn => simp [Mem.len_setNode]

theorem Mem.get_modifyNode_other (m : Mem) (i : Nat) (f : HNode → HNode)
    (j : Nat) (hj : j ≠ i) : (m.modifyNode i f).get j = m.get j := by
  unfold Mem.modifyNode
  cases h : m.get i with
  | none => rfl
  | some hn => exact Mem.get_setNode_other m i (f hn) j hj

theorem Mem.get_modifyNode_self (m : Mem) (i : Nat) (f : HNode → HNode)
    (h : HNode) (hget : m.get i = some h) :
    (m.modifyNode i f).get i = some (f h) := by
  unfold Mem.modifyNode
  rw [hget]
  have hi : i < m.len := by
    by_contra hc
    rw [Mem.get_none_of_ge m i (by omega)] at hget
    exact Option.noConfusion hget
  exact Mem.get_setNode_self m i (f h) hi

theorem Mem.childrenOf_out_of_range (m : Mem) (i : Nat) (hi : m.len ≤ i) :
    m.childrenOf i = [] := by
  simp [Mem.childrenOf, Mem.get_none_of_ge m i hi]

/-! ### RemoveChildrenWithTag: frame and detachment (Claim C10) -/

/-- Claim C10: RemoveChildrenWithTag only rewrites the receiver's child
list — every other record is untouched and no parent field anywhere
changes.  Hence a removed child's record is unchanged and its parent
back-reference still points at the former parent (the receiver), and
every remaining child keeps its parent pointing at the receiver. -/
theorem removeChildren_detached_frame (m : Mem) (n : Nat) (t : String)
    (hn : n < m.len) (hself : n ∉ m.childrenOf n)
    (hpar : ∀ d ∈ m.childrenOf n, m.parentOf d = some n) :
    (∀ i, i ≠ n → (m.removeChildrenWithTag n t).get i = m.get i) ∧
    (∀ i, (m.removeChildrenWithTag n t).parentOf i = m.parentOf i) ∧
    ((m.removeChildrenWithTag n t).childrenOf n =
      (m.childrenOf n).filter (fun c => m.tagOf c != t)) ∧
    (∀ d ∈ m.childrenOf n, m.tagOf d = t →
      (m.removeChildrenWithTag n t).get d = m.get d ∧
      (m.removeChildrenWithTag n t).parentOf d = some n) ∧
    (∀ d ∈ (m.removeChildrenWithTag n t).childrenOf n,
      (m.removeChildrenWithTag n t).parentOf d = some n) := by
  obtain ⟨hrec, hgetn⟩ := Mem.get_some_of_lt m n hn
  have hframe : ∀ i, i ≠ n → (m.removeChildrenWithTag n t).get i = m.get i := by
    intro i hi
    exact Mem.get_modifyNode_other m n _ i hi
  have hgetn' : (m.removeChildrenWithTag n t).get n =
      some { hrec with children := hrec.children.filter (fun c => m.tagOf c != t) } :=
    Mem.get_modifyNode_self m n _ hrec hgetn
  have hchild : (m.removeChildrenWithTag n t).childrenOf n =
      (m.childrenOf n).filter (fun c => m.tagOf c != t) := by
    simp [Mem.childrenOf, hgetn', hgetn]
  have hparall : ∀ i, (m.removeChildrenWithTag n t).parentOf i = m.parentOf i := by
    intro i
    by_cases hi : i = n
    · subst hi
      simp [Mem.parentOf, hgetn', hgetn]
    · rw [Mem.parentOf, hframe i hi, Mem.parentOf]
  refine ⟨hframe, hparall, hchild, ?_, ?_⟩
  · intro d hd htag
    have hdn : d ≠ n := by
      intro he
      subst he
      exact hself hd
    exact ⟨hframe d hdn, by rw [hparall d]; exact hpar d hd⟩
  · intro d hd
    rw [hchild] at hd
    have hd' : d ∈ m.childrenOf n := (List.mem_filter.1 hd).1
    rw [hparall d]
    exact hpar d hd'

/-- Witness for C10 at a concrete heap: a root with children tagged x and
y, removing tag x. -/
theorem removeChildren_detached_frame_witness :
    (∀ i, i ≠ 0 →
      (Mem.removeChildrenWithTag ⟨[⟨"r", none, [1, 2], "", []⟩,
        ⟨"x", some 0, [], "", []⟩, ⟨"y", some 0, [], "", []⟩]⟩ 0 "x").get i =
      (⟨[⟨"r", none, [1, 2], "", []⟩, ⟨"x", some 0, [], "", []⟩,
        ⟨"y", some 0, [], "", []⟩]⟩ : Mem).get i) ∧
    (∀ i, (Mem.removeChildrenWithTag ⟨[⟨"r", none, [1, 2], "", []⟩,
        ⟨"x", some 0, [], "", []⟩, ⟨"y", some 0, [], "", []⟩]⟩ 0 "x").parentOf i =
      (⟨[⟨"r", none, [1, 2], "", []⟩, ⟨"x", some 0, [], "", []⟩,
        ⟨"y", some 0, [], "", []⟩]⟩ : Mem).parentOf i) ∧
    ((Mem.removeChildrenWithTag ⟨[⟨"r", none, [1, 2], "", []⟩,
        ⟨"x", some 0, [], "", []⟩, ⟨"y", some 0, [], "", []⟩]⟩ 0 "x").childrenOf 0 =
      ((⟨[⟨"r", none, [1, 2], "", []⟩, ⟨"x", some 0, [], "", []⟩,
        ⟨"y", some 0, [], "", []⟩]⟩ : Mem).childrenOf 0).filter
          (fun c => (⟨[⟨"r", none, [1, 2], "", []⟩, ⟨"x", some 0, [], "", []⟩,
            ⟨"y", some 0, [], "", []⟩]⟩ : Mem).tagOf c != "x")) ∧
    (∀ d ∈ (⟨[⟨"r", none, [1, 2], "", []⟩, ⟨"x", some 0, [], "", []⟩,
        ⟨"y", some 0, [], "", []⟩]⟩ : Mem).childrenOf 0,
      (⟨[⟨"r", none, [1, 2], "", []⟩, ⟨"x", some 0, [], "", []⟩,
        ⟨"y", some 0, [], "", []⟩]⟩ : Mem).tagOf d = "x" →
      (Mem.removeChildrenWithTag ⟨[⟨"r", none, [1, 2], "", []⟩,
        ⟨"x", some 0, [], "", []⟩, ⟨"y", some 0, [], "", []⟩]⟩ 0 "x").get d =
        (⟨[⟨"r", none, [1, 2], "", []⟩, ⟨"x", some 0, [], "", []⟩,
          ⟨"y", some 0, [], "", []⟩]⟩ : Mem).get d ∧
      (Mem.removeChildrenWithTag ⟨[⟨"r", none, [1, 2], "", []⟩,
        ⟨"x", some 0, [], "", []⟩, ⟨"y", some 0, [], "", []⟩]⟩ 0 "x").parentOf d = some 0) ∧
    (∀ d ∈ (Mem.removeChildrenWithTag ⟨[⟨"r", none, [1, 2], "", []⟩,
        ⟨"x", some 0, [], "", []⟩, ⟨"y", some 0, [], "", []⟩]⟩ 0 "x").childrenOf 0,
      (Mem.removeChildrenWithTag ⟨[⟨"r", none, [1, 2], "", []⟩,
        ⟨"x", some 0, [], "", []⟩, ⟨"y", some 0, [], "", []⟩]⟩ 0 "x").parentOf d = some 0) :=
  removeChildren_detached_frame
    ⟨[⟨"r", none, [1, 2], "", []⟩, ⟨"x", some 0, [], "", []⟩,
      ⟨"y", some 0, [], "", []⟩]⟩ 0 "x" (by decide) (by decide) (by decide)

/-! ### Heap growth: alloc, appendChild, createPath -/

theorem Mem.modifyNode_get_none (m : Mem) (i : Nat) (f : HNode → HNode)
    (h : m.get i = none) : m.modifyNode i f = m := by
  unfold Mem.modifyNode
  rw [h]

theorem Mem.tagOf_modifyNode (m : Mem) (i : Nat) (f : HNode → HNode)
    (hf : ∀ h, (f h).tag = h.tag) (j : Nat) :
    (m.modifyNode i f).tagOf j = m.tagOf j := by
  by_cases hj : j = i
  · subst hj
    cases h : m.get j with
    | none => rw [Mem.modifyNode_get_none m j f h]
    | some hr =>
      simp [Mem.tagOf, Mem.get_modifyNode_self m j f hr h, h, hf]
  · simp [Mem.tagOf, Mem.get_modifyNode_other m i f j hj]

theorem Mem.childrenOf_modifyNode (m : Mem) (i : Nat) (f : HNode → HNode)
    (hf : ∀ h, (f h).children = h.children) (j : Nat) :
    (m.modifyNode i f).childrenOf j = m.childrenOf j := by
  by_cases hj : j = i
  · subst hj
    cases h : m.get j with
    | none => rw [Mem.modifyNode_get_none m j f h]
    | some hr =>
      simp [Mem.childrenOf, Mem.get_modifyNode_self m j f hr h, h, hf]
  · simp [Mem.childrenOf, Mem.get_modifyNode_other m i f j hj]

theorem Mem.alloc_len (m : Mem) (h : HNode) : (m.alloc h).1.len = m.len + 1 := by
  simp [Mem.alloc, Mem.len]

theorem Mem.alloc_get_lt (m : Mem) (h : HNode) (i : Nat) (hi : i < m.len) :
    (m.alloc h).1.get i = m.get i := by
  simp only [Mem.alloc, Mem.get]
  rw [List.getElem?_append]
  simp only [Mem.len] at hi
  rw [if_pos hi]

theorem Mem.alloc_get_self (m : Mem) (h : HNode) :
    (m.alloc h).1.get m.len = some h := by
  simp [Mem.alloc, Mem.get, Mem.len]

theorem Mem.appendChild_len (m : Mem) (p c : Nat) :
    (m.appendChild p c).1.len = m.len := by
  simp [Mem.appendChild, Mem.len_modifyNode]

theorem Mem.appendChild_snd (m : Mem) (p c : Nat) :
    (m.appendChild p c).2 = c := rfl

theorem Mem.appendChild_get_other (m : Mem) (p c i : Nat)
    (hip : i ≠ p) (hic : i ≠ c) : (m.appendChild p c).1.get i = m.get i := by
  simp only [Mem.appendChild]
  rw [Mem.get_modifyNode_other _ p _ i hip, Mem.get_modifyNode_other m c _ i hic]

theorem Mem.appendChild_tagOf (m : Mem) (p c j : Nat) :
    (m.appendChild p c).1.tagOf j = m.tagOf j := by
  simp only [Mem.appendChild]
  rw [Mem.tagOf_modifyNode _ p (fun h => { h with children := h.children ++ [c] })
    (fun h => rfl) j]
  rw [Mem.tagOf_modifyNode m c (fun h => { h with parent := some p })
    (fun h => rfl) j]

theorem Mem.childrenOf_parent_set (m : Mem) (c j i : Nat) :
    (m.modifyNode c (fun h => { h with parent := some j })).childrenOf i =
      m.childrenOf i :=
  Mem.childrenOf_modifyNode m c (fun h => { h with parent := some j })
    (fun _ => rfl) i

theorem Mem.appendChild_children_self (m : Mem) (p c : Nat)
    (hp : p < m.len) (hpc : p ≠ c) :
    (m.appendChild p c).1.childrenOf p = m.childrenOf p ++ [c] := by
  simp only [Mem.appendChild]
  obtain ⟨hrec, hget⟩ := Mem.get_some_of_lt m p hp
  have h1 : (m.modifyNode c (fun h => { h with parent := some p })).get p =
      m.get p := Mem.get_modifyNode_other m c _ p hpc
  have h2 := Mem.get_modifyNode_self
    (m.modifyNode c (fun h => { h with parent := some p })) p
    (fun h => { h with children := h.children ++ [c] }) hrec (by rw [h1, hget])
  simp [Mem.childrenOf, h2, hget]

theorem Mem.appendChild_children_other (m : Mem) (p c i : Nat) (hip : i ≠ p) :
    (m.appendChild p c).1.childrenOf i = m.childrenOf i := by
  simp only [Mem.appendChild]
  rw [Mem.childrenOf]
  rw [Mem.get_modifyNode_other _ p _ i hip]
  rw [← Mem.childrenOf]
  exact Mem.childrenOf_parent_set m c p i

/-- Heap growth relation: addresses stay live, tags are unchanged, and
child lists only grow by appended suffixes. -/
def Extends (m m' : Mem) : Prop :=
  m.len ≤ m'.len ∧
  (∀ i, i < m.len → m'.tagOf i = m.tagOf i) ∧
  (∀ i, i < m.len → ∃ ext, m'.childrenOf i = m.childrenOf i ++ ext)

theorem extends_refl (m : Mem) : Extends m m :=
  ⟨le_rfl, fun _ _ => rfl, fun i _ => ⟨[], by simp⟩⟩

theorem extends_trans {m1 m2 m3 : Mem} (h12 : Extends m1 m2)
    (h23 : Extends m2 m3) : Extends m1 m3 := by
  obtain ⟨hl1, ht1, hc1⟩ := h12
  obtain ⟨hl2, ht2, hc2⟩ := h23
  refine ⟨le_trans hl1 hl2, ?_, ?_⟩
  · intro i hi
    rw [ht2 i (lt_of_lt_of_le hi hl1), ht1 i hi]
  · intro i hi
    obtain ⟨e1, he1⟩ := hc1 i hi
    obtain ⟨e2, he2⟩ := hc2 i (lt_of_lt_of_le hi hl1)
    exact ⟨e1 ++ e2, by rw [he2, he1, List.append_assoc]⟩

theorem extends_alloc (m : Mem) (h : HNode) : Extends m (m.alloc h).1 := by
  refine ⟨by rw [Mem.alloc_len]; omega, ?_, ?_⟩
  · intro i hi
    simp [Mem.tagOf, Mem.alloc_get_lt m h i hi]
  · intro i hi
    exact ⟨[], by simp [Mem.childrenOf, Mem.alloc_get_lt m h i hi]⟩

theorem extends_appendChild (m : Mem) (p c : Nat) :
    Extends m (m.appendChild p c).1 := by
  refine ⟨by rw [Mem.appendChild_len], ?_, ?_⟩
  · intro i _
    exact Mem.appendChild_tagOf m p c i
  · intro i hi
    by_cases hip : i = p
    · subst hip
      by_cases hic : i = c
      · subst hic
        simp only [Mem.appendChild]
        cases hget : m.get i with
        | none =>
          refine ⟨[], ?_⟩
          rw [Mem.modifyNode_get_none m i _ hget]
          rw [Mem.modifyNode_get_none m i _ hget]
          simp
        | some hr =>
          have h1 := Mem.get_modifyNode_self m i
            (fun h => { h with parent := some i }) hr hget
          have h2 := Mem.get_modifyNode_self _ i
            (fun h => { h with children := h.children ++ [i] }) _ h1
          refine ⟨[i], ?_⟩
          simp [Mem.childrenOf, h2, hget]
      · exact ⟨[c], Mem.appendChild_children_self m i c hi (fun he => hic he)⟩
    · exact ⟨[], by rw [Mem.appendChild_children_other m p c i hip]; simp⟩

theorem createPath_extends : ∀ (p : List String) (m : Mem) (x : Nat),
    Extends m (m.createPath x p).1 := by
  intro p
  induction p with
  | nil => intro m x; exact extends_refl m
  | cons t ts ih =>
    intro m x
    have h1 := extends_alloc m (⟨t, none, [], "", []⟩ : HNode)
    have h2 := extends_appendChild (m.alloc ⟨t, none, [], "", []⟩).1 x m.len
    have h3 := ih ((m.alloc ⟨t, none, [], "", []⟩).1.appendChild x m.len).1 m.len
    exact extends_trans (extends_trans h1 h2) h3

theorem createPath_frame : ∀ (p : List String) (m : Mem) (x i : Nat),
    i < m.len → i ≠ x → (m.createPath x p).1.get i = m.get i := by
  intro p
  induction p with
  | nil => intro m x i _ _; rfl
  | cons t ts ih =>
    intro m x i hi hix
    have h1 : (m.alloc ⟨t, none, [], "", []⟩).1.get i = m.get i :=
      Mem.alloc_get_lt m _ i hi
    have h2 : ((m.alloc ⟨t, none, [], "", []⟩).1.appendChild x m.len).1.get i =
        (m.alloc ⟨t, none, [], "", []⟩).1.get i :=
      Mem.appendChild_get_other _ x m.len i hix (by omega)
    have h3 := ih ((m.alloc ⟨t, none, [], "", []⟩).1.appendChild x m.len).1 m.len i
      (by rw [Mem.appendChild_len, Mem.alloc_len]; omega) (by omega)
    calc (m.createPath x (t :: ts)).1.get i
        = ((m.alloc ⟨t, none, [], "", []⟩).1.appendChild x m.len).1.get i := h3
      _ = m.get i := by rw [h2, h1]

theorem Mem.childrenOf_alloc_lt (m : Mem) (h : HNode) (i : Nat) (hi : i < m.len) :
    (m.alloc h).1.childrenOf i = m.childrenOf i := by
  simp [Mem.childrenOf, Mem.alloc_get_lt m h i hi]

theorem Mem.childrenOf_alloc_self (m : Mem) (h : HNode) :
    (m.alloc h).1.childrenOf m.len = h.children := by
  simp [Mem.childrenOf, Mem.alloc_get_self m h]

theorem Mem.tagOf_alloc_self (m : Mem) (h : HNode) :
    (m.alloc h).1.tagOf m.len = h.tag := by
  simp [Mem.tagOf, Mem.alloc_get_self m h]

theorem Mem.appendChild_children_self' (m : Mem) (p c : Nat) (hp : p < m.len) :
    (m.appendChild p c).1.childrenOf p = m.childrenOf p ++ [c] := by
  by_cases hpc : p = c
  · subst hpc
    obtain ⟨hr, hget⟩ := Mem.get_some_of_lt m p hp
    simp only [Mem.appendChild]
    have h1 := Mem.get_modifyNode_self m p (fun h => { h with parent := some p }) hr hget
    have h2 := Mem.get_modifyNode_self _ p
      (fun h => { h with children := h.children ++ [p] }) _ h1
    simp [Mem.childrenOf, h2, hget]
  · exact Mem.appendChild_children_self m p c hp hpc

theorem Mem.WF_alloc (m : Mem) (hWF : Mem.WF m) (h : HNode)
    (hch : ∀ c ∈ h.children, c < m.len + 1) : Mem.WF (m.alloc h).1 := by
  intro i hi c hc
  rw [Mem.alloc_len] at hi ⊢
  by_cases hil : i < m.len
  · rw [Mem.childrenOf_alloc_lt m h i hil] at hc
    have := hWF i hil c hc
    omega
  · have hieq : i = m.len := by omega
    subst hieq
    rw [Mem.childrenOf_alloc_self m h] at hc
    exact hch c hc

theorem Mem.WF_appendChild (m : Mem) (p c : Nat) (hWF : Mem.WF m)
    (hc : c < m.len) : Mem.WF (m.appendChild p c).1 := by
  intro i hi d hd
  rw [Mem.appendChild_len] at hi ⊢
  by_cases hip : i = p
  · subst hip
    rw [Mem.appendChild_children_self' m i c hi] at hd
    rcases List.mem_append.1 hd with hold | hnew
    · exact hWF i hi d hold
    · have : d = c := by simpa using hnew
      subst this
      exact hc
  · rw [Mem.appendChild_children_other m p c i hip] at hd
    exact hWF i hi d hd

theorem Mem.WF_createPath : ∀ (p : List String) (m : Mem) (x : Nat),
    Mem.WF m → x < m.len →
    Mem.WF (m.createPath x p).1 ∧ (m.createPath x p).2 < (m.createPath x p).1.len := by
  intro p
  induction p with
  | nil => intro m x hWF hx; exact ⟨hWF, hx⟩
  | cons t ts ih =>
    intro m x hWF hx
    have hWF1 : Mem.WF (m.alloc ⟨t, none, [], "", []⟩).1 :=
      Mem.WF_alloc m hWF _ (by intro c hc; simp at hc)
    have hWF2 : Mem.WF ((m.alloc ⟨t, none, [], "", []⟩).1.appendChild x m.len).1 :=
      Mem.WF_appendChild _ x m.len hWF1 (by rw [Mem.alloc_len]; omega)
    have hlen2 : m.len < ((m.alloc ⟨t, none, [], "", []⟩).1.appendChild x m.len).1.len := by
      rw [Mem.appendChild_len, Mem.alloc_len]; omega
    exact ih _ m.len hWF2 hlen2

theorem Mem.childrenOf_eq_of_get_eq {m m' : Mem} {i : Nat}
    (h : m'.get i = m.get i) : m'.childrenOf i = m.childrenOf i := by
  simp [Mem.childrenOf, h]

/-- The first step of CreatePath on a non-empty path: the receiver gains
exactly the fresh chain head (address `m.len`, carrying the first tag) at
the end of its child list, the head starts with no children, and the rest
of the heap at live addresses other than the receiver is untouched. -/
theorem createPath_cons_start (t : String) (ts : List String) (m : Mem) (x : Nat)
    (hx : x < m.len) :
    (m.createPath x (t :: ts)).1.childrenOf x = m.childrenOf x ++ [m.len] ∧
    (m.createPath x (t :: ts)).1.tagOf m.len = t := by
  have hstep : m.createPath x (t :: ts) =
      Mem.createPath ((m.alloc ⟨t, none, [], "", []⟩).1.appendChild x m.len).1 m.len ts := rfl
  have hM2len : ((m.alloc ⟨t, none, [], "", []⟩).1.appendChild x m.len).1.len = m.len + 1 := by
    rw [Mem.appendChild_len, Mem.alloc_len]
  have hxM2 : ((m.alloc ⟨t, none, [], "", []⟩).1.appendChild x m.len).1.childrenOf x =
      m.childrenOf x ++ [m.len] := by
    rw [Mem.appendChild_children_self' _ x m.len (by rw [Mem.alloc_len]; omega)]
    rw [Mem.childrenOf_alloc_lt m _ x hx]
  have htagM2 : ((m.alloc ⟨t, none, [], "", []⟩).1.appendChild x m.len).1.tagOf m.len = t := by
    rw [Mem.appendChild_tagOf, Mem.tagOf_alloc_self]
  constructor
  · rw [hstep]
    rw [Mem.childrenOf_eq_of_get_eq (createPath_frame ts _ m.len x
      (by omega) (by omega))]
    exact hxM2
  · rw [hstep]
    have hext := createPath_extends ts ((m.alloc ⟨t, none, [], "", []⟩).1.appendChild x m.len).1 m.len
    rw [hext.2.1 m.len (by omega)]
    exact htagM2

theorem find?_congr_mem {α : Type} : ∀ (l : List α) (f g : α → Bool),
    (∀ x ∈ l, f x = g x) → l.find? f = l.find? g := by
  intro l
  induction l with
  | nil => intro f g _; rfl
  | cons a as ih =>
    intro f g h
    by_cases ha : f a = true
    · rw [List.find?_cons_of_pos as ha, List.find?_cons_of_pos as (by rw [← h a (by simp)]; exact ha)]
    · rw [List.find?_cons_of_neg as ha,
        List.find?_cons_of_neg as (by rw [← h a (by simp)]; exact ha)]
      exact ih f g (fun x hx => h x (by simp [hx]))

/-- EnsurePath retraces a freshly created path without touching the heap:
after CreatePath made the chain (from a node with no matching child),
EnsurePath on the same path finds the chain and returns its end. -/
theorem ensure_after_create : ∀ (ts : List String) (t : String) (m : Mem) (x : Nat),
    Mem.WF m → x < m.len → m.findChildTag x t = none →
    Mem.ensurePath (m.createPath x (t :: ts)).1 x (t :: ts) = m.createPath x (t :: ts) := by
  intro ts
  induction ts with
  | nil =>
    intro t m x hWF hx hnone
    obtain ⟨hch, htag⟩ := createPath_cons_start t [] m x hx
    have hfind : (m.createPath x [t]).1.findChildTag x t = some m.len := by
      rw [Mem.findChildTag, hch, List.find?_append]
      have hcongr : (m.childrenOf x).find?
          (fun d => (m.createPath x [t]).1.tagOf d == t) =
          (m.childrenOf x).find? (fun d => m.tagOf d == t) := by
        refine find?_congr_mem _ _ _ (fun d hd => ?_)
        have hd' : d < m.len := hWF x hx d hd
        rw [(createPath_extends [t] m x).2.1 d hd']
      rw [hcongr]
      rw [Mem.findChildTag] at hnone
      rw [hnone]
      simp [List.find?, htag, Option.or]
    simp only [Mem.ensurePath]
    rw [hfind]
    rfl
  | cons u us ih =>
    intro t m x hWF hx hnone
    obtain ⟨hch, htag⟩ := createPath_cons_start t (u :: us) m x hx
    have hstep : m.createPath x (t :: u :: us) =
        Mem.createPath ((m.alloc ⟨t, none, [], "", []⟩).1.appendChild x m.len).1 m.len (u :: us) := rfl
    have hM2len : ((m.alloc ⟨t, none, [], "", []⟩).1.appendChild x m.len).1.len = m.len + 1 := by
      rw [Mem.appendChild_len, Mem.alloc_len]
    have hWF2 : Mem.WF ((m.alloc ⟨t, none, [], "", []⟩).1.appendChild x m.len).1 :=
      Mem.WF_appendChild _ x m.len
        (Mem.WF_alloc m hWF _ (by intro c hc; simp at hc))
        (by rw [Mem.alloc_len]; omega)
    have hchC : ((m.alloc ⟨t, none, [], "", []⟩).1.appendChild x m.len).1.childrenOf m.len = [] := by
      by_cases hxl : x = m.len
      · omega
      · rw [Mem.appendChild_children_other _ x m.len m.len (fun he => hxl he.symm)]
        rw [Mem.childrenOf_alloc_self]
    have hnone2 : ((m.alloc ⟨t, none, [], "", []⟩).1.appendChild x m.len).1.findChildTag m.len u = none := by
      rw [Mem.findChildTag, hchC]
      rfl
    have hfind : (m.createPath x (t :: u :: us)).1.findChildTag x t = some m.len := by
      rw [Mem.findChildTag, hch, List.find?_append]
      have hcongr : (m.childrenOf x).find?
          (fun d => (m.createPath x (t :: u :: us)).1.tagOf d == t) =
          (m.childrenOf x).find? (fun d => m.tagOf d == t) := by
        refine find?_congr_mem _ _ _ (fun d hd => ?_)
        have hd' : d < m.len := hWF x hx d hd
        rw [(createPath_extends (t :: u :: us) m x).2.1 d hd']
      rw [hcongr]
      rw [Mem.findChildTag] at hnone
      rw [hnone]
      simp [List.find?, htag, Option.or]
    simp only [Mem.ensurePath]
    rw [hfind]
    rw [hstep]
    exact ih u _ m.len hWF2 (by omega) hnone2

theorem ensurePath_extends : ∀ (p : List String) (m : Mem) (n : Nat),
    Extends m (m.ensurePath n p).1 := by
  intro p
  induction p with
  | nil => intro m n; exact extends_refl m
  | cons t ts ih =>
    intro m n
    cases hf : m.findChildTag n t with
    | some c =>
      simp only [Mem.ensurePath, hf]
      exact ih m c
    | none =>
      simp only [Mem.ensurePath, hf]
      exact createPath_extends (t :: ts) m n

theorem ensurePath_second_noop : ∀ (p : List String) (m : Mem) (n : Nat),
    Mem.WF m → n < m.len →
    Mem.ensurePath (Mem.ensurePath m n p).1 n p = Mem.ensurePath m n p := by
  intro p
  induction p with
  | nil => intro m n _ _; rfl
  | cons t ts ih =>
    intro m n hWF hn
    cases hf : m.findChildTag n t with
    | some c =>
      have hf' : (m.childrenOf n).find? (fun d => m.tagOf d == t) = some c := hf
      have hcmem : c ∈ m.childrenOf n := List.mem_of_find?_eq_some hf'
      have hc : c < m.len := hWF n hn c hcmem
      have hfirst : m.ensurePath n (t :: ts) = m.ensurePath c ts := by
        simp only [Mem.ensurePath, hf]
      rw [hfirst]
      have hExt : Extends m (m.ensurePath c ts).1 := ensurePath_extends ts m c
      have hfind2 : (m.ensurePath c ts).1.findChildTag n t = some c := by
        obtain ⟨ext, hche⟩ := hExt.2.2 n hn
        rw [Mem.findChildTag, hche, List.find?_append]
        have hcongr : (m.childrenOf n).find?
            (fun d => (m.ensurePath c ts).1.tagOf d == t) =
            (m.childrenOf n).find? (fun d => m.tagOf d == t) :=
          find?_congr_mem _ _ _ (fun d hd => by rw [hExt.2.1 d (hWF n hn d hd)])
        rw [hcongr, hf']
        simp [Option.or]
      simp only [Mem.ensurePath, hfind2]
      exact ih m c hWF hc
    | none =>
      have hfirst : m.ensurePath n (t :: ts) = m.createPath n (t :: ts) := by
        simp only [Mem.ensurePath, hf]
      rw [hfirst]
      exact ensure_after_create ts t m n hWF hn hf

/-- Claim C7: EnsurePath is idempotent — with an empty tag sequence it
returns the receiver and the unchanged heap, and a second call with the
same tag sequence on the same starting node returns the same node as the
first call and leaves the heap exactly as the first call left it (no new
nodes are created, no child list changes). -/
theorem ensurePath_idempotent (m : Mem) (n : Nat) (p : List String)
    (hWF : Mem.WF m) (hn : n < m.len) :
    Mem.ensurePath m n [] = (m, n) ∧
    Mem.ensurePath (Mem.ensurePath m n p).1 n p = Mem.ensurePath m n p :=
  ⟨rfl, ensurePath_second_noop p m n hWF hn⟩

/-- Witness for C7: a single-node heap and the path a/b. -/
theorem ensurePath_idempotent_witness :
    Mem.ensurePath (⟨[⟨"r", none, [], "", []⟩]⟩ : Mem) 0 [] =
      ((⟨[⟨"r", none, [], "", []⟩]⟩ : Mem), 0) ∧
    Mem.ensurePath
        (Mem.ensurePath (⟨[⟨"r", none, [], "", []⟩]⟩ : Mem) 0 ["a", "b"]).1
        0 ["a", "b"] =
      Mem.ensurePath (⟨[⟨"r", none, [], "", []⟩]⟩ : Mem) 0 ["a", "b"] :=
  ensurePath_idempotent (⟨[⟨"r", none, [], "", []⟩]⟩ : Mem) 0 ["a", "b"]
    (by decide) (by decide)

/-! ### CreateUniquePath (Claim C8) -/

theorem Mem.removeChildren_len (m : Mem) (n : Nat) (t : String) :
    (m.removeChildrenWithTag n t).len = m.len :=
  Mem.len_modifyNode m n _

theorem Mem.removeChildren_get_other (m : Mem) (n : Nat) (t : String)
    (i : Nat) (hi : i ≠ n) :
    (m.removeChildrenWithTag n t).get i = m.get i :=
  Mem.get_modifyNode_other m n _ i hi

theorem Mem.removeChildren_childrenOf (m : Mem) (n : Nat) (t : String)
    (hn : n < m.len) :
    (m.removeChildrenWithTag n t).childrenOf n =
      (m.childrenOf n).filter (fun c => m.tagOf c != t) := by
  obtain ⟨hr, hget⟩ := Mem.get_some_of_lt m n hn
  have h2 := Mem.get_modifyNode_self m n
    (fun h => { h with children := h.children.filter (fun c => m.tagOf c != t) }) hr hget
  simp [Mem.childrenOf, Mem.removeChildrenWithTag, h2, hget]

theorem Mem.removeChildren_tagOf (m : Mem) (n : Nat) (t : String) (i : Nat) :
    (m.removeChildrenWithTag n t).tagOf i = m.tagOf i :=
  Mem.tagOf_modifyNode m n
    (fun h => { h with children := h.children.filter (fun c => m.tagOf c != t) })
    (fun _ => rfl) i

theorem Mem.removeChildren_WF (m : Mem) (n : Nat) (t : String)
    (hWF : Mem.WF m) : Mem.WF (m.removeChildrenWithTag n t) := by
  intro i hi c hc
  rw [Mem.removeChildren_len] at hi ⊢
  by_cases hin : i = n
  · subst hin
    rw [Mem.removeChildren_childrenOf m i t hi] at hc
    exact hWF i hi c (List.mem_filter.1 hc).1
  · rw [Mem.childrenOf_eq_of_get_eq (Mem.removeChildren_get_other m n t i hin)] at hc
    exact hWF i hi c hc

theorem createPath_children_high : ∀ (p : List String) (m : Mem) (x K : Nat),
    K ≤ m.len → (∀ i, K ≤ i → ∀ cc ∈ m.childrenOf i, K ≤ cc) →
    ∀ i, K ≤ i → ∀ cc ∈ (m.createPath x p).1.childrenOf i, K ≤ cc := by
  intro p
  induction p with
  | nil => intro m x K _ hinv; exact hinv
  | cons t ts ih =>
    intro m x K hK hinv
    have hinv1 : ∀ i, K ≤ i →
        ∀ cc ∈ (m.alloc ⟨t, none, [], "", []⟩).1.childrenOf i, K ≤ cc := by
      intro i hKi cc hcc
      by_cases hil : i < m.len
      · rw [Mem.childrenOf_alloc_lt m _ i hil] at hcc
        exact hinv i hKi cc hcc
      · by_cases hie : i = m.len
        · subst hie
          rw [Mem.childrenOf_alloc_self] at hcc
          simp at hcc
        · rw [Mem.childrenOf_out_of_range _ i (by rw [Mem.alloc_len]; omega)] at hcc
          simp at hcc
    have hinv2 : ∀ i, K ≤ i →
        ∀ cc ∈ ((m.alloc ⟨t, none, [], "", []⟩).1.appendChild x m.len).1.childrenOf i,
          K ≤ cc := by
      intro i hKi cc hcc
      by_cases hix : i = x
      · subst hix
        by_cases hxl : i < (m.alloc ⟨t, none, [], "", []⟩).1.len
        · rw [Mem.appendChild_children_self' _ i m.len hxl] at hcc
          rcases List.mem_append.1 hcc with hold | hnew
          · exact hinv1 i hKi cc hold
          · have : cc = m.len := by simpa using hnew
            omega
        · rw [Mem.childrenOf_eq_of_get_eq ?_] at hcc
          · exact hinv1 i hKi cc hcc
          · simp only [Mem.appendChild]
            rw [Mem.modifyNode_get_none]
            rw [Mem.get_modifyNode_other _ m.len _ i]
            · intro hie
              rw [hie, Mem.alloc_len] at hxl
              omega
            · rw [Mem.get_modifyNode_other _ m.len _ i]
              · exact Mem.get_none_of_ge _ i (by omega)
              · intro hie
                rw [hie, Mem.alloc_len] at hxl
                omega
      · rw [Mem.appendChild_children_other _ x m.len i hix] at hcc
        exact hinv1 i hKi cc hcc
    exact ih _ m.len K
      (by rw [Mem.appendChild_len, Mem.alloc_len]; omega) hinv2

theorem reaches_eq_of_no_occur (m : Mem) (d : Nat)
    (hno : ∀ i, d ∉ m.childrenOf i) :
    ∀ a, Reaches m a d → a = d := by
  have key : ∀ a b, Reaches m a b → b = d → a = d := by
    intro a b hr
    induction hr with
    | refl a => intro hbd; exact hbd
    | step hc hr2 ih =>
      intro hbd
      rename_i pa pc pb
      have hcd : pc = d := ih hbd
      rw [hcd] at hc
      exact absurd hc (hno pa)
  intro a hr
  exact key a d hr rfl

/-- Claim C8: CreateUniquePath on a non-empty path first removes every
direct child carrying the first tag and then creates the fresh chain, so
afterwards (1) the receiver's children are exactly the surviving old
children, in their original relative order, followed by the fresh chain
head (address m.len); (2) the chain head carries the first tag; (3) the
receiver has exactly one direct child with that tag — the chain head; and
(4) under the tree-shapedness assumptions, no removed child (hence no
node of a previous chain under that tag) remains reachable from the
receiver. -/
theorem createUniquePath_replaces (m : Mem) (n : Nat) (t : String)
    (ts : List String) (hWF : Mem.WF m) (hn : n < m.len) :
    ((m.createUniquePath n (t :: ts)).1.childrenOf n =
      (m.childrenOf n).filter (fun c => m.tagOf c != t) ++ [m.len]) ∧
    ((m.createUniquePath n (t :: ts)).1.tagOf m.len = t) ∧
    (((m.createUniquePath n (t :: ts)).1.childrenOf n).filter
      (fun c => (m.createUniquePath n (t :: ts)).1.tagOf c == t) = [m.len]) ∧
    (∀ d ∈ m.childrenOf n, m.tagOf d = t → d ≠ n →
      (∀ i, i < m.len → i ≠ n → d ∉ m.childrenOf i) →
      ¬ Reaches (m.createUniquePath n (t :: ts)).1 n d) := by
  have hstep : m.createUniquePath n (t :: ts) =
      (m.removeChildrenWithTag n t).createPath n (t :: ts) := rfl
  have h1len : (m.removeChildrenWithTag n t).len = m.len :=
    Mem.removeChildren_len m n t
  have hWF1 : Mem.WF (m.removeChildrenWithTag n t) :=
    Mem.removeChildren_WF m n t hWF
  have hn1 : n < (m.removeChildrenWithTag n t).len := by omega
  obtain ⟨hch, htag⟩ :=
    createPath_cons_start t ts (m.removeChildrenWithTag n t) n hn1
  have hch1 : (m.removeChildrenWithTag n t).childrenOf n =
      (m.childrenOf n).filter (fun c => m.tagOf c != t) :=
    Mem.removeChildren_childrenOf m n t hn
  have hfinal_ch : (m.createUniquePath n (t :: ts)).1.childrenOf n =
      (m.childrenOf n).filter (fun c => m.tagOf c != t) ++ [m.len] := by
    rw [hstep, hch, hch1, h1len]
  have hfinal_tag : (m.createUniquePath n (t :: ts)).1.tagOf m.len = t := by
    rw [hstep]
    rw [show m.len = (m.removeChildrenWithTag n t).len from h1len.symm]
    exact htag
  have hExt1 : Extends (m.removeChildrenWithTag n t)
      ((m.removeChildrenWithTag n t).createPath n (t :: ts)).1 :=
    createPath_extends (t :: ts) (m.removeChildrenWithTag n t) n
  have htag_low : ∀ i, i < m.len →
      (m.createUniquePath n (t :: ts)).1.tagOf i = m.tagOf i := by
    intro i hi
    rw [hstep, hExt1.2.1 i (by omega), Mem.removeChildren_tagOf]
  refine ⟨hfinal_ch, hfinal_tag, ?_, ?_⟩
  · rw [hfinal_ch, List.filter_append]
    have hleft : ((m.childrenOf n).filter (fun c => m.tagOf c != t)).filter
        (fun c => (m.createUniquePath n (t :: ts)).1.tagOf c == t) = [] := by
      rw [List.filter_eq_nil_iff]
      intro d hd
      obtain ⟨hdm, hdne⟩ := List.mem_filter.1 hd
      have hdlt : d < m.len := hWF n hn d hdm
      rw [htag_low d hdlt]
      simpa using hdne
    rw [hleft]
    simp [hfinal_tag]
  · intro d hd htagd hdn hother
    have hdlt : d < m.len := hWF n hn d hd
    have hno : ∀ i, d ∉ (m.createUniquePath n (t :: ts)).1.childrenOf i := by
      intro i
      by_cases hin : i = n
      · subst hin
        rw [hfinal_ch]
        intro hmem
        rcases List.mem_append.1 hmem with hf | hl
        · obtain ⟨_, hbne⟩ := List.mem_filter.1 hf
          rw [htagd] at hbne
          simp at hbne
        · have : d = m.len := by simpa using hl
          omega
      · by_cases hil : i < m.len
        · rw [hstep]
          rw [Mem.childrenOf_eq_of_get_eq (createPath_frame (t :: ts)
            (m.removeChildrenWithTag n t) n i (by omega) hin)]
          rw [Mem.childrenOf_eq_of_get_eq (Mem.removeChildren_get_other m n t i hin)]
          exact hother i hil hin
        · intro hmem
          rw [hstep] at hmem
          have hhigh := createPath_children_high (t :: ts)
            (m.removeChildrenWithTag n t) n m.len (by omega)
            (by
              intro j hj cc hcc
              rw [Mem.childrenOf_out_of_range _ j (by omega)] at hcc
              simp at hcc)
            i (by omega) d hmem
          omega
    intro hr
    exact hdn (reaches_eq_of_no_occur _ d hno n hr).symm

/-- Witness for C8: root with children x and y; CreateUniquePath "x". -/
theorem createUniquePath_replaces_witness :
    ((Mem.createUniquePath ⟨[⟨"r", none, [1, 2], "", []⟩, ⟨"x", some 0, [], "", []⟩,
        ⟨"y", some 0, [], "", []⟩]⟩ 0 ["x"]).1.childrenOf 0 =
      ((⟨[⟨"r", none, [1, 2], "", []⟩, ⟨"x", some 0, [], "", []⟩,
        ⟨"y", some 0, [], "", []⟩]⟩ : Mem).childrenOf 0).filter
          (fun c => (⟨[⟨"r", none, [1, 2], "", []⟩, ⟨"x", some 0, [], "", []⟩,
            ⟨"y", some 0, [], "", []⟩]⟩ : Mem).tagOf c != "x") ++ [3]) ∧
    ((Mem.createUniquePath ⟨[⟨"r", none, [1, 2], "", []⟩, ⟨"x", some 0, [], "", []⟩,
        ⟨"y", some 0, [], "", []⟩]⟩ 0 ["x"]).1.tagOf 3 = "x") ∧
    (((Mem.createUniquePath ⟨[⟨"r", none, [1, 2], "", []⟩, ⟨"x", some 0, [], "", []⟩,
        ⟨"y", some 0, [], "", []⟩]⟩ 0 ["x"]).1.childrenOf 0).filter
      (fun c => (Mem.createUniquePath ⟨[⟨"r", none, [1, 2], "", []⟩,
        ⟨"x", some 0, [], "", []⟩, ⟨"y", some 0, [], "", []⟩]⟩ 0 ["x"]).1.tagOf c == "x") =
      [3]) ∧
    (∀ d ∈ (⟨[⟨"r", none, [1, 2], "", []⟩, ⟨"x", some 0, [], "", []⟩,
        ⟨"y", some 0, [], "", []⟩]⟩ : Mem).childrenOf 0,
      (⟨[⟨"r", none, [1, 2], "", []⟩, ⟨"x", some 0, [], "", []⟩,
        ⟨"y", some 0, [], "", []⟩]⟩ : Mem).tagOf d = "x" → d ≠ 0 →
      (∀ i, i < 3 → i ≠ 0 →
        d ∉ (⟨[⟨"r", none, [1, 2], "", []⟩, ⟨"x", some 0, [], "", []⟩,
          ⟨"y", some 0, [], "", []⟩]⟩ : Mem).childrenOf i) →
      ¬ Reaches (Mem.createUniquePath ⟨[⟨"r", none, [1, 2], "", []⟩,
        ⟨"x", some 0, [], "", []⟩, ⟨"y", some 0, [], "", []⟩]⟩ 0 ["x"]).1 0 d) :=
  createUniquePath_replaces
    ⟨[⟨"r", none, [1, 2], "", []⟩, ⟨"x", some 0, [], "", []⟩,
      ⟨"y", some 0, [], "", []⟩]⟩ 0 "x" [] (by decide) (by decide)

end Gml
